import Mathlib

/-!
Shallow embedding of the dependency-graph resolver in
`apps/docs/components/preview/index.tsx` (the `Preview` server component and its
helpers `parseDependencyVersion`, `parseContent`, `processDependencies`,
`parseShadcnComponents`), together with proofs settling the frozen claims.

Source text is modelled as `List Char`.  JavaScript objects used as string
maps are modelled as association lists with JS assignment semantics
(`setKey`: update the existing key in place, otherwise append).  The dynamic
`import(...)` calls are modelled as abstract keyed stores returning
`Option`-records (`none` models a rejected import, i.e. NotFound or a
transport error).  The unbounded recursion of `parseShadcnComponents` is
modelled with explicit fuel: a `none` result of the resolver means the
recursion did not complete within the given depth budget (for the cyclic
inputs below this holds for every budget, i.e. the real code never returns).
-/

abbrev Str := List Char

/-- The apostrophe character, `\x27` (first character class member of `[^'"\s]`). -/
def quoteS : Char := Char.ofNat 39

/-- The double-quote character, `\x22` (second character class member of `[^'"\s]`). -/
def quoteD : Char := Char.ofNat 34

/-- JavaScript's `\s` character class (regex whitespace). -/
def isJsSpace (c : Char) : Bool :=
  c = ' ' || c = Char.ofNat 9 || c = Char.ofNat 10 || c = Char.ofNat 11 ||
  c = Char.ofNat 12 || c = Char.ofNat 13 || c = Char.ofNat 0xa0 ||
  c = Char.ofNat 0x1680 || (0x2000 ≤ c.toNat && c.toNat ≤ 0x200a) ||
  c = Char.ofNat 0x2028 || c = Char.ofNat 0x2029 || c = Char.ofNat 0x202f ||
  c = Char.ofNat 0x205f || c = Char.ofNat 0x3000 || c = Char.ofNat 0xfeff

/-- A character that ends an identifier match of `kiboRegex` (`['"\s]`). -/
def isStop (c : Char) : Bool := c = quoteS || c = quoteD || isJsSpace c

/-!
### `parseDependencyVersion` (source lines 29, 33-38)

`dependencyRegex = /^(.+?)(?:@(.+))?$/` with a lazy first group: the match
succeeds at the first position `i ≥ 1` whose character is `@` and which has a
nonempty remainder; the remainder (greedy `(.+)`) is the version.  If no such
position exists the whole (nonempty) string is the name and the version
defaults to `"latest"`.  On the empty string the regex does not match at all
and the destructured `name` is `undefined`; the later JS object write
`target[name] = version` coerces that key to the string `"undefined"`.
-/

/-- Scan for the first `@` that is preceded by at least one consumed character
(`acc ≠ []`) and followed by at least one character (`rest ≠ []`). -/
def depScan : Str → Str → Option (Str × Str)
  | _, [] => none
  | acc, c :: rest =>
      if c = '@' ∧ acc ≠ [] ∧ rest ≠ [] then some (acc.reverse, rest)
      else depScan (c :: acc) rest

/-- Embedding of `parseDependencyVersion`. -/
def parseDependencyVersion (dep : Str) : Str × Str :=
  match dep with
  | [] => ("undefined".data, "latest".data)
  | _ =>
      match depScan [] dep with
      | some (n, v) => (n, v)
      | none => (dep, "latest".data)

/-!
### `parseContent` (source lines 30, 40-41)

`registryRegex = /@\/registry\/new-york\/ui\//g`; `parseContent` replaces
every (leftmost, non-overlapping) occurrence of that pattern with
`@/components/ui/`.  `pcAux` carries fuel; one unit is spent per step and at
least one character is consumed per step, so fuel `s.length` always suffices.
-/

def regPat : Str := "@/registry/new-york/ui/".data

def canonPre : Str := "@/components/ui/".data

def pcAux : Nat → Str → Str
  | 0, s => s
  | _ + 1, [] => []
  | n + 1, c :: cs =>
      if regPat <+: (c :: cs) then
        canonPre ++ pcAux n (List.drop regPat.length (c :: cs))
      else c :: pcAux n cs

/-- Embedding of `parseContent`. -/
def parseContent (s : Str) : Str := pcAux s.length s

/-!
### The reference scanner (source lines 31, 57-68)

`kiboRegex = /@\/components\/ui\/(?!kibo-ui\/)([^'"\s]+)/g`.  The JS regex
scan tries each start position left to right; on success it continues right
after the matched text, on failure it advances one character.  A match is the
literal prefix `@/components/ui/`, a position where `kibo-ui/` does *not*
follow (negative lookahead), and then a maximal nonempty run of characters
outside `['"\s]`.  `matches.map(m => m.replace('@/components/ui/', ''))`
strips the prefix (its first occurrence, which is at position 0), and
`new Set(...)` deduplicates keeping first occurrences.
-/

def uiRoot : Str := "@/components/ui/".data

def kiboSeg : Str := "kibo-ui/".data

/-- The text following the matched `@/components/ui/` literal. -/
def afterOf (s : Str) : Str := List.drop uiRoot.length s

/-- The greedy `[^'"\s]+` identifier match starting right after the literal. -/
def identOf (s : Str) : Str := (afterOf s).takeWhile (fun ch => !(isStop ch))

def scanAux : Nat → Str → List Str
  | 0, _ => []
  | _ + 1, [] => []
  | n + 1, c :: cs =>
      if uiRoot <+: (c :: cs) then
        if kiboSeg <+: afterOf (c :: cs) then scanAux n cs
        else
          if identOf (c :: cs) = [] then scanAux n cs
          else identOf (c :: cs) ::
            scanAux n (List.drop (identOf (c :: cs)).length (afterOf (c :: cs)))
      else scanAux n cs

/-- `[...new Set(xs)]`: deduplicate keeping the first occurrence of each element. -/
def dedupFirst (seen : List Str) : List Str → List Str
  | [] => []
  | x :: xs => if x ∈ seen then dedupFirst seen xs else x :: dedupFirst (x :: seen) xs

/-- The component identifiers referenced by a (already rewritten) source text:
the matches of `kiboRegex`, prefix-stripped and deduplicated. -/
def scanComponents (s : Str) : List Str := dedupFirst [] (scanAux s.length s)

/-!
### Dependency maps (source lines 43-55)

JS objects used as maps: an assignment `target[name] = version` updates the
existing entry in place or appends a new one.
-/

abbrev DepMap := List (Str × Str)

def lookupKey (k : Str) : DepMap → Option Str
  | [] => none
  | (k0, v0) :: m => if k0 = k then some v0 else lookupKey k m

/-- JS object assignment `m[k] = v`. -/
def setKey : DepMap → Str → Str → DepMap
  | [], k, v => [(k, v)]
  | (k0, v0) :: m, k, v => if k0 = k then (k0, v) :: m else (k0, v0) :: setKey m k v

/-- Embedding of `processDependencies` for a present argument: iterate over
`Object.values(deps)` (the keys of `deps` are discarded), parse each value as
a dependency reference and assign it into the target. -/
def processDependencies (deps : DepMap) (target : DepMap) : DepMap :=
  deps.foldl (fun t p =>
    let nv := parseDependencyVersion p.2
    setKey t nv.1 nv.2) target

/-- Embedding of `processDependencies` including the `undefined` guard. -/
def processDependenciesOpt : Option DepMap → DepMap → DepMap
  | none, t => t
  | some ds, t => processDependencies ds t

/-!
### `parseShadcnComponents` (source lines 57-97)

Per invocation the function allocates *fresh* `files`/`dependencies`/
`devDependencies` objects, scans the rewritten input, and for each referenced
identifier (inside a per-identifier `try`/`catch`): imports
`./shadcn/<id>.json` (a failed import is caught and contributes nothing),
stores the rewritten first file content under `/components/ui/<name>.tsx`,
merges the record's dependency maps, and recurses on the record's raw first
file content.  The recursive call's returned maps are discarded, but the
call is awaited, so its non-termination propagates (`none` here).
-/

structure ShadcnMod where
  name : Str
  dependencies : Option DepMap
  devDependencies : Option DepMap
  files : List Str
  deriving DecidableEq

/-- The `./shadcn/<id>.json` keyed store; `none` models a rejected import. -/
abbrev ShadcnStore := Str → Option ShadcnMod

structure PState where
  files : DepMap
  deps : DepMap
  devDeps : DepMap
  deriving DecidableEq

def uiPath (n : Str) : Str := "/components/ui/".data ++ n ++ ".tsx".data

def kiboPath (n : Str) : Str := "/components/ui/kibo-ui/".data ++ n ++ ".tsx".data

/-- Process the component list of one `parseShadcnComponents` invocation.
`rcall` is the recursive call (at one less fuel). -/
def resolveComps (sh : ShadcnStore) (rcall : Str → Option PState) :
    List Str → PState → Option PState
  | [], st => some st
  | c :: cs, st =>
      match sh c with
      | none => resolveComps sh rcall cs st
      | some mod =>
          let content := mod.files.headD []
          let st2 : PState :=
            ⟨setKey st.files (uiPath mod.name) (parseContent content),
             processDependenciesOpt mod.dependencies st.deps,
             processDependenciesOpt mod.devDependencies st.devDeps⟩
          match rcall content with
          | none => none
          | some _ => resolveComps sh rcall cs st2

/-- Embedding of `parseShadcnComponents`, with explicit recursion-depth fuel. -/
def parseShadcnComponents (sh : ShadcnStore) : Nat → Str → Option PState
  | 0, _ => none
  | n + 1, str =>
      resolveComps sh (parseShadcnComponents sh n)
        (scanComponents (parseContent str)) ⟨[], [], []⟩

/-- The sequence of identifiers for which a `./shadcn/<id>.json` import is
attempted during a run of `parseShadcnComponents`, within the fuel budget
(instrumentation of the same recursion structure). -/
def traceComps (sh : ShadcnStore) (rcall : Str → List Str) : List Str → List Str
  | [] => []
  | c :: cs =>
      c :: (match sh c with
        | none => traceComps sh rcall cs
        | some mod => rcall (mod.files.headD []) ++ traceComps sh rcall cs)

def fetchTrace (sh : ShadcnStore) : Nat → Str → List Str
  | 0, _ => []
  | n + 1, str => traceComps sh (fetchTrace sh n) (scanComponents (parseContent str))

/-!
### `Preview` (source lines 99-190)
-/

structure RegistryEntry where
  dependencies : Option DepMap
  devDependencies : Option DepMap
  registryDependencies : Option DepMap
  files : List Str
  deriving DecidableEq

/-- The `../../public/registry/<name>.json` keyed store. -/
abbrev PublicStore := Str → Option RegistryEntry

structure VirtualFileSet where
  files : DepMap
  dependencies : DepMap
  devDependencies : DepMap
  deriving DecidableEq

/-- Modelled from the spec: the fixed project-configuration scaffold file
(`tsconfig`, imported from a sibling module whose source is not under
`src/`); an opaque text supplied verbatim by the caller. -/
def tsconfigScaffold : Str := "tsconfig scaffold".data

/-- Modelled from the spec: the fixed shared-utility scaffold file (`utils`,
imported from a sibling module whose source is not under `src/`). -/
def utilsScaffold : Str := "utils scaffold".data

/-- Modelled from the spec: the fixed shared-content scaffold file
(`content`, imported from a sibling module whose source is not under `src/`). -/
def contentScaffold : Str := "content scaffold".data

def appPath : Str := "/App.tsx".data

def tsconfigPath : Str := "/tsconfig.json".data

def utilsPath : Str := "/lib/utils.ts".data

def contentPath : Str := "/lib/content.ts".data

/-- The fixed entries of the `customSetup.dependencies` object literal that
appear *before* `...dependencies` (source lines 170-179). -/
def baselineRuntime : DepMap :=
  [("@radix-ui/react-icons".data, "latest".data),
   ("clsx".data, "latest".data),
   ("tailwind-merge".data, "latest".data),
   ("class-variance-authority".data, "latest".data),
   ("tailwindcss".data, "latest".data),
   ("tailwindcss-animate".data, "latest".data)]

/-- The fixed entry of the `customSetup.dependencies` literal that appears
*after* `...dependencies` (source line 183). -/
def dateFnsKey : Str := "date-fns".data

def latestVal : Str := "latest".data

/-- The fixed entries of the `customSetup.devDependencies` literal, all of
which appear before `...devDependencies` (source lines 186-187). -/
def baselineDev : DepMap :=
  [("autoprefixer".data, "latest".data),
   ("postcss".data, "latest".data)]

/-- JS object spread `{ ...base, ...m }` restricted to our use: fold the
entries of `m` over `base` with assignment semantics. -/
def spreadInto (base : DepMap) (m : DepMap) : DepMap :=
  m.foldl (fun t p => setKey t p.1 p.2) base

/-- The final `customSetup.dependencies` object (source lines 170-184):
baseline entries, then the resolved map spread over them, then the literal
`'date-fns': 'latest'`. -/
def finalRuntimeDeps (deps : DepMap) : DepMap :=
  setKey (spreadInto baselineRuntime deps) dateFnsKey latestVal

/-- The final `customSetup.devDependencies` object (source lines 185-189). -/
def finalDevDeps (devDeps : DepMap) : DepMap := spreadInto baselineDev devDeps

/-- The runtime-dependency accumulator after source lines 155-157: the
registry record's dependencies, then the caller's `demoDependencies`, merged
into the accumulator produced by scanning. -/
def runtimeAccum (initDeps : DepMap) (regDeps demoDeps : Option DepMap) : DepMap :=
  processDependenciesOpt demoDeps (processDependenciesOpt regDeps initDeps)

/-- The `registry.registryDependencies` loop (source lines 128-147).  There
is no `try`/`catch` here: a rejected import rejects the whole `Promise.all`,
i.e. the `Preview` call throws (`Except.error`). -/
def registryDepsStep (sh : ShadcnStore) (rcall : Str → Option PState) :
    List (Str × Str) → PState → Option (Except Unit PState)
  | [], st => some (Except.ok st)
  | (_, d) :: ds, st =>
      match sh d with
      | none => some (Except.error ())
      | some mod =>
          let content := mod.files.headD []
          let st2 : PState :=
            ⟨setKey st.files (uiPath mod.name) (parseContent content),
             processDependenciesOpt mod.dependencies st.deps,
             processDependenciesOpt mod.devDependencies st.devDeps⟩
          match rcall content with
          | none => none
          | some _ => registryDepsStep sh rcall ds st2

/-- Embedding of the `Preview` pipeline (the resolution part, source lines
99-190).  The outer `Option` is the fuel/non-termination channel; the inner
`Except Unit` models a thrown (rejected) call. -/
def preview (sh : ShadcnStore) (pub : PublicStore) (fuel : Nat)
    (name code : Str) (demoDeps : Option DepMap) :
    Option (Except Unit VirtualFileSet) :=
  match pub name with
  | none => some (Except.error ())
  | some reg =>
      match parseShadcnComponents sh fuel code with
      | none => none
      | some init =>
          let files1 :=
            setKey (setKey (setKey (setKey init.files appPath code)
              tsconfigPath tsconfigScaffold) utilsPath utilsScaffold)
              contentPath contentScaffold
          let selected := parseContent (reg.files.headD [])
          match parseShadcnComponents sh fuel selected with
          | none => none
          | some _ =>
              let afterRD : Option (Except Unit PState) :=
                match reg.registryDependencies with
                | none => some (Except.ok ⟨files1, init.deps, init.devDeps⟩)
                | some rdeps =>
                    registryDepsStep sh (parseShadcnComponents sh fuel) rdeps
                      ⟨files1, init.deps, init.devDeps⟩
              match afterRD with
              | none => none
              | some (Except.error e) => some (Except.error e)
              | some (Except.ok st) =>
                  let files2 := setKey st.files (kiboPath name) (parseContent selected)
                  some (Except.ok
                    ⟨files2,
                     finalRuntimeDeps (runtimeAccum st.deps reg.dependencies demoDeps),
                     finalDevDeps (processDependenciesOpt reg.devDependencies st.devDeps)⟩)

/-- The returned file set of a `Preview` run, when the run terminated without
throwing. -/
def vfsOf : Option (Except Unit VirtualFileSet) → Option VirtualFileSet
  | some (Except.ok v) => some v
  | _ => none

/-- The content stored at path `p` by a terminating, non-throwing `Preview`
run (`some none` = the run returned a file set with no file at `p`). -/
def fileAt (r : Option (Except Unit VirtualFileSet)) (p : Str) : Option (Option Str) :=
  (vfsOf r).map (fun v => lookupKey p v.files)

/-!
### Concrete instances used by the claims
-/

def aId : Str := "a".data

def bId : Str := "b".data

def buttonId : Str := "button".data

def iconId : Str := "icon".data

def demoId : Str := "demo".data

/-- Component a's content: references `b` twice (duplicated text). -/
def contentRefB2 : Str :=
  "import x from @/components/ui/b\nimport y from @/components/ui/b\n".data

/-- Component b's content: references `a`. -/
def contentRefA : Str := "import x from @/components/ui/a\n".data

/-- A cyclic registry: `a` references `b` (twice), `b` references `a`. -/
def cycStore : ShadcnStore := fun s =>
  if s = aId then some ⟨aId, none, none, [contentRefB2]⟩
  else if s = bId then some ⟨bId, none, none, [contentRefA]⟩
  else none

/-- Entry source for C1: one internal reference to `button`. -/
def entryCode : Str := "import b from @/components/ui/button\n".data

/-- `button`'s registry source: references `icon` (raw registry path). -/
def buttonContent : Str := "import i from @/registry/new-york/ui/icon\n".data

/-- `icon`'s registry source: no further references. -/
def iconContent : Str := "export const Icon = 1\n".data

/-- Acyclic shadcn store: `button` references `icon`, `icon` nothing. -/
def st1 : ShadcnStore := fun s =>
  if s = buttonId then some ⟨buttonId, none, none, [buttonContent]⟩
  else if s = iconId then some ⟨iconId, none, none, [iconContent]⟩
  else none

/-- Public registry for C1: the entry record, empty source, no extras. -/
def pub1 : PublicStore := fun s =>
  if s = demoId then some ⟨none, none, none, [[]]⟩ else none

/-- Public registry for C4's counterexample: the entry record lists the
explicit registry dependency `missing`, which `st1` does not contain. -/
def pub2 : PublicStore := fun s =>
  if s = demoId then some ⟨none, none, some [("0".data, "missing".data)], [[]]⟩
  else none

/-- Entry source for C4's amended claim: references the nonexistent `zz` and
the existing `button`. -/
def codeZZ : Str :=
  "import a from @/components/ui/zz\nimport b from @/components/ui/button\n".data

/-- `button`'s content referencing `button` itself (self-reference, for C9). -/
def selfContent : Str := "import self from @/components/ui/button\n".data

/-- Scanner example: references `button`, an already-canonical `kibo-ui/`
path, and `icon`. -/
def scanExample : Str :=
  ("import a from @/components/ui/button\n" ++
   "import c from @/components/ui/kibo-ui/tags\n" ++
   "import d from @/components/ui/icon\n").data

def zzId : Str := "zz".data

def reactKey : Str := "react".data

def react18 : Str := "^18.0.0".data

/-- Whether a `Preview` run threw (its promise rejected). -/
def threw : Option (Except Unit VirtualFileSet) → Bool
  | some (Except.error _) => true
  | _ => false

/-- First-`some` fallback on options (the value per key after a fold of
assignments: the folded map's last write if any, else the previous value). -/
def fallback : Option Str → Option Str → Option Str
  | some v, _ => some v
  | none, b => b

/-- The value attached to the *last* entry of `m` carrying key `k` (the
winner under JS assignment folding). -/
def lastVal (m : DepMap) (k : Str) : Option Str := lookupKey k m.reverse

/-- The version attached to the last value of `ds` whose parsed dependency
name is `k` (the winner of folding `processDependencies ds` into a target). -/
def lastParsed (ds : DepMap) (k : Str) : Option Str :=
  lookupKey k ((ds.map (fun p => parseDependencyVersion p.2)).reverse)

/-!
## Lemmas about association-list maps
-/

theorem lookup_setKey (m : DepMap) (k v k' : Str) :
    lookupKey k' (setKey m k v) = if k = k' then some v else lookupKey k' m := by
  induction m with
  | nil => simp [setKey, lookupKey]
  | cons p m ih =>
      obtain ⟨k0, v0⟩ := p
      by_cases h0 : k0 = k
      · subst h0
        simp only [setKey, if_pos rfl, lookupKey]
        by_cases h' : k0 = k'
        · simp [h']
        · simp [h', lookupKey]
      · simp only [setKey, if_neg h0, lookupKey]
        by_cases h' : k0 = k'
        · have : ¬ k = k' := fun he => h0 (h'.trans he.symm)
          simp [h', this]
        · simp [h', ih]

theorem lookup_append_some {l1 : DepMap} {k v : Str} (l2 : DepMap)
    (h : lookupKey k l1 = some v) : lookupKey k (l1 ++ l2) = some v := by
  induction l1 with
  | nil => simp [lookupKey] at h
  | cons p l ih =>
      obtain ⟨k0, v0⟩ := p
      by_cases h0 : k0 = k
      · simp only [lookupKey, if_pos h0] at h ⊢
        simpa using h
      · simp only [lookupKey, if_neg h0] at h ⊢
        exact ih h

theorem lookup_append_none {l1 : DepMap} {k : Str} (l2 : DepMap)
    (h : lookupKey k l1 = none) : lookupKey k (l1 ++ l2) = lookupKey k l2 := by
  induction l1 with
  | nil => simp
  | cons p l ih =>
      obtain ⟨k0, v0⟩ := p
      by_cases h0 : k0 = k
      · simp [lookupKey, if_pos h0] at h
      · simp only [lookupKey, if_neg h0] at h ⊢
        exact ih h

theorem lookup_fold (f : Str × Str → Str × Str) (m base : DepMap) (k : Str) :
    lookupKey k (m.foldl (fun t p => setKey t (f p).1 (f p).2) base) =
      fallback (lookupKey k (m.map f).reverse) (lookupKey k base) := by
  induction m generalizing base with
  | nil => simp [lookupKey, fallback]
  | cons p ms ih =>
      have hstep : (p :: ms).foldl (fun t p => setKey t (f p).1 (f p).2) base =
          ms.foldl (fun t p => setKey t (f p).1 (f p).2) (setKey base (f p).1 (f p).2) := rfl
      have hrev : ((p :: ms).map f).reverse = (ms.map f).reverse ++ [f p] := by simp
      rw [hstep, ih, hrev]
      generalize f p = q
      obtain ⟨n1, v1⟩ := q
      cases hm : lookupKey k (ms.map f).reverse with
      | some v => rw [lookup_append_some _ hm]; simp [hm, fallback]
      | none =>
          rw [lookup_append_none _ hm, lookup_setKey]
          simp only [fallback, lookupKey]
          by_cases h0 : n1 = k
          · simp [h0, fallback]
          · simp [h0, fallback]

theorem lookup_spread (m base : DepMap) (k : Str) :
    lookupKey k (spreadInto base m) = fallback (lastVal m k) (lookupKey k base) := by
  have h := lookup_fold id m base k
  simpa [spreadInto, lastVal] using h

theorem lookup_procDeps (ds t : DepMap) (k : Str) :
    lookupKey k (processDependencies ds t) = fallback (lastParsed ds k) (lookupKey k t) :=
  lookup_fold (fun p => parseDependencyVersion p.2) ds t k

/-!
## Lemmas about `parseDependencyVersion`
-/

theorem parse_cons (c : Char) (l : Str) :
    parseDependencyVersion (c :: l) =
      match depScan [] (c :: l) with
      | some (n, v) => (n, v)
      | none => (c :: l, "latest".data) := rfl

theorem depScan_no_at (l : Str) : ∀ acc, '@' ∉ l → depScan acc l = none := by
  induction l with
  | nil => intro acc _; rfl
  | cons c rest ih =>
      intro acc h
      have hc : ¬ c = '@' := fun he => h (by simp [he])
      have hcond : ¬ (c = '@' ∧ acc ≠ [] ∧ rest ≠ []) := fun hand => hc hand.1
      simp only [depScan]
      rw [if_neg hcond]
      exact ih _ (fun hm => h (List.mem_cons_of_mem _ hm))

theorem depScan_found (l acc v : Str) (h : '@' ∉ l) (hv : v ≠ [])
    (hacc : acc = [] → l ≠ []) :
    depScan acc (l ++ '@' :: v) = some (acc.reverse ++ l, v) := by
  induction l generalizing acc with
  | nil =>
      have ha : acc ≠ [] := fun he => (hacc he) rfl
      simp only [List.nil_append, depScan, List.append_eq]
      simp [ha, hv]
  | cons c l ih =>
      have hc : ¬ c = '@' := fun he => h (by simp [he])
      simp only [List.cons_append, depScan, List.append_eq]
      rw [if_neg (fun hand => hc hand.1)]
      rw [ih (c :: acc) (fun hm => h (List.mem_cons_of_mem _ hm))
        (fun hx => absurd hx (List.cons_ne_nil c acc))]
      simp

theorem parse_with_sep (nm v : Str) (hnm : nm ≠ []) (hat : '@' ∉ nm.drop 1)
    (hv : v ≠ []) : parseDependencyVersion (nm ++ '@' :: v) = (nm, v) := by
  obtain ⟨c, rest, rfl⟩ : ∃ c rest, nm = c :: rest := by
    cases nm with
    | nil => exact absurd rfl hnm
    | cons c rest => exact ⟨c, rest, rfl⟩
  have hat2 : '@' ∉ rest := by simpa using hat
  rw [List.cons_append, parse_cons]
  have h1 : depScan [] (c :: (rest ++ '@' :: v)) = depScan [c] (rest ++ '@' :: v) := by
    simp only [depScan]
    rw [if_neg (fun hand => hand.2.1 rfl)]
  rw [h1, depScan_found rest [c] v hat2 hv (by simp)]
  simp

theorem parse_plain (nm : Str) (hnm : nm ≠ []) (hat : '@' ∉ nm.drop 1) :
    parseDependencyVersion nm = (nm, "latest".data) := by
  obtain ⟨c, rest, rfl⟩ : ∃ c rest, nm = c :: rest := by
    cases nm with
    | nil => exact absurd rfl hnm
    | cons c rest => exact ⟨c, rest, rfl⟩
  have hat2 : '@' ∉ rest := by simpa using hat
  rw [parse_cons]
  have h1 : depScan [] (c :: rest) = depScan [c] rest := by
    simp only [depScan]
    rw [if_neg (fun hand => hand.2.1 rfl)]
  rw [h1, depScan_no_at rest [c] hat2]

/-!
## Claim C6 — dependency-reference parsing
-/

/-- Claim C6 counterexample: the separator chosen by `parseDependencyVersion`
is *not* the last `@` of the string.  On `"a@b@c"` the last-`@` rule would
give name `"a@b"`, but the code (lazy `(.+?)`) splits at the *first*
non-leading `@`, giving name `"a"` and version `"b@c"`. -/
theorem c6_counterexample :
    parseDependencyVersion "a@b@c".data = ("a".data, "b@c".data) ∧
    ("a".data : Str) ≠ "a@b".data := by
  exact ⟨by decide, by decide⟩

/-- Claim C6 (amended): a dependency string `name` or `name@version` parses
to `(name, version)` with the version defaulting to `"latest"` when absent;
the separator is the *first* `@` at a non-leading position (so a scoped
name's leading `@` is never the separator), not the last one.  In particular
the three example strings of the claim parse as the claim states. -/
theorem c6_dependency_parsing :
    (∀ nm v : Str, nm ≠ [] → '@' ∉ nm.drop 1 → v ≠ [] →
        parseDependencyVersion (nm ++ '@' :: v) = (nm, v)) ∧
    (∀ nm : Str, nm ≠ [] → '@' ∉ nm.drop 1 →
        parseDependencyVersion nm = (nm, "latest".data)) ∧
    parseDependencyVersion "foo".data = ("foo".data, "latest".data) ∧
    parseDependencyVersion "foo@1.2.3".data = ("foo".data, "1.2.3".data) ∧
    parseDependencyVersion "@scope/foo@2.0.0".data = ("@scope/foo".data, "2.0.0".data) :=
  ⟨parse_with_sep, parse_plain, by decide, by decide, by decide⟩

/-- Witness for C6 at concrete inputs. -/
theorem c6_dependency_parsing_witness :
    parseDependencyVersion ("@scope/foo".data ++ '@' :: "2.0.0".data) =
      ("@scope/foo".data, "2.0.0".data) ∧
    parseDependencyVersion "lucide-react".data = ("lucide-react".data, "latest".data) :=
  ⟨c6_dependency_parsing.1 _ _ (by decide) (by decide) (by decide),
   c6_dependency_parsing.2.1 _ (by decide) (by decide)⟩

/-!
## Claim C5 — baseline overridability
-/

/-- Claim C5 counterexample: `date-fns` is one of the fixed framework-level
entries of the final dependency object, but it is written *after* the
`...dependencies` spread (source line 183), so a resolution result for
`date-fns` does not override the baseline — the baseline overrides it back
to `latest`. -/
theorem c5_counterexample :
    lookupKey dateFnsKey (finalRuntimeDeps [(dateFnsKey, "4.1.0".data)]) = some latestVal ∧
    latestVal ≠ "4.1.0".data := by
  exact ⟨by decide, by decide⟩

/-- Claim C5 (amended): every baseline entry of the final runtime map
*except* the trailing `date-fns` entry is overridable by the resolution
result (last write wins), and every baseline entry of the final
dev-dependency map is overridable. -/
theorem c5_baseline_override :
    (∀ (deps : DepMap) (k v : Str), k ∈ baselineRuntime.map Prod.fst →
        k ≠ dateFnsKey → lastVal deps k = some v →
        lookupKey k (finalRuntimeDeps deps) = some v) ∧
    (∀ (devDeps : DepMap) (k v : Str), k ∈ baselineDev.map Prod.fst →
        lastVal devDeps k = some v →
        lookupKey k (finalDevDeps devDeps) = some v) := by
  constructor
  · intro deps k v _ hk hlast
    rw [show finalRuntimeDeps deps =
        setKey (spreadInto baselineRuntime deps) dateFnsKey latestVal from rfl]
    rw [lookup_setKey, if_neg (fun he => hk he.symm), lookup_spread, hlast]
    rfl
  · intro devDeps k v _ hlast
    rw [show finalDevDeps devDeps = spreadInto baselineDev devDeps from rfl]
    rw [lookup_spread, hlast]
    rfl

/-- Witness for C5 at concrete inputs (`clsx` and `postcss` baselines are
overridden by resolution results). -/
theorem c5_baseline_override_witness :
    lookupKey "clsx".data (finalRuntimeDeps [("clsx".data, "2.1.1".data)]) =
      some "2.1.1".data ∧
    lookupKey "postcss".data (finalDevDeps [("postcss".data, "8.4.47".data)]) =
      some "8.4.47".data :=
  ⟨c5_baseline_override.1 _ _ _ (by decide) (by decide) (by decide),
   c5_baseline_override.2 _ _ _ (by decide) (by decide)⟩

/-!
## Claim C7 — last-write-wins merge with caller precedence
-/

/-- Claim C7: folding a dependency map into an accumulator is last-write-wins
(the final value per key is the last parsed entry for that key, with no
conflict error, falling back to the accumulator's previous value), and the
caller's `demoDependencies` are merged after all registry-discovered
dependencies, so for every key they carry, theirs is the final value of the
accumulator. -/
theorem c7_last_write_wins :
    (∀ (ds t : DepMap) (k : Str),
        lookupKey k (processDependencies ds t) =
          fallback (lastParsed ds k) (lookupKey k t)) ∧
    (∀ (initDeps : DepMap) (regDeps : Option DepMap) (demo : DepMap) (k v : Str),
        lastParsed demo k = some v →
        lookupKey k (runtimeAccum initDeps regDeps (some demo)) = some v) := by
  refine ⟨lookup_procDeps, ?_⟩
  intro initDeps regDeps demo k v h
  rw [show runtimeAccum initDeps regDeps (some demo) =
      processDependencies demo (processDependenciesOpt regDeps initDeps) from rfl]
  rw [lookup_procDeps, h]
  rfl

/-- Witness for C7: the registry declares `x@1.0.0`, the caller declares
`x@2.0.0`; the caller's version is the final accumulator value. -/
theorem c7_last_write_wins_witness :
    lookupKey "x".data
      (runtimeAccum [] (some [("0".data, "x@1.0.0".data)])
        (some [("0".data, "x@2.0.0".data)])) = some "2.0.0".data :=
  c7_last_write_wins.2 _ _ _ _ _ (by decide)

/-!
## Claim C10 — map keys are discarded by the merge step
-/

/-- Claim C10: `processDependencies` depends only on the *values* of the map
it is given (the keys are discarded), each value is parsed as a `name@version`
reference whose name becomes the accumulator key; in particular the
caller-supplied entry `react ↦ ^18.0.0` contributes the accumulator entry
`^18.0.0 ↦ latest` (and no `react` entry), including through the
caller-dependency path of `Preview`. -/
theorem c10_keys_discarded :
    (∀ (ds ds2 t : DepMap), ds.map Prod.snd = ds2.map Prod.snd →
        processDependencies ds t = processDependencies ds2 t) ∧
    processDependencies [(reactKey, react18)] [] = [(react18, latestVal)] ∧
    lookupKey react18 (runtimeAccum [] none (some [(reactKey, react18)])) = some latestVal ∧
    lookupKey reactKey (runtimeAccum [] none (some [(reactKey, react18)])) = none := by
  refine ⟨?_, by decide, by decide, by decide⟩
  intro ds
  induction ds with
  | nil =>
      intro ds2 t h
      cases ds2 with
      | nil => rfl
      | cons q qs => simp at h
  | cons p ps ih =>
      intro ds2 t h
      cases ds2 with
      | nil => simp at h
      | cons q qs =>
          simp only [List.map_cons, List.cons.injEq] at h
          obtain ⟨h1, h2⟩ := h
          have hstep1 : processDependencies (p :: ps) t =
              processDependencies ps
                (setKey t (parseDependencyVersion p.2).1 (parseDependencyVersion p.2).2) := rfl
          have hstep2 : processDependencies (q :: qs) t =
              processDependencies qs
                (setKey t (parseDependencyVersion q.2).1 (parseDependencyVersion q.2).2) := rfl
          rw [hstep1, hstep2, h1]
          exact ih qs _ h2

/-- Witness for C10: two maps with different keys but the same values merge
identically. -/
theorem c10_keys_discarded_witness :
    processDependencies [("react".data, "lodash".data)] [] =
      processDependencies [("left-pad".data, "lodash".data)] [] :=
  c10_keys_discarded.1 _ _ _ (by decide)

/-!
## Generic prefix/suffix/infix helpers
-/

theorem tw_pre (p : Char → Bool) (l : Str) : l.takeWhile p <+: l :=
  ⟨l.dropWhile p, List.takeWhile_append_dropWhile p l⟩

theorem pre_mid {p s : Str} (h : p <+: s) : p <:+: s := by
  obtain ⟨t, rfl⟩ := h
  exact ⟨[], t, rfl⟩

theorem mid_cons {p s : Str} (c : Char) (h : p <:+: s) : p <:+: c :: s := by
  obtain ⟨u, t, rfl⟩ := h
  exact ⟨c :: u, t, rfl⟩

theorem mid_cons_cases {p s : Str} {c : Char} (h : p <:+: c :: s) :
    p <+: c :: s ∨ p <:+: s := by
  obtain ⟨u, t, hu⟩ := h
  cases u with
  | nil =>
      left
      exact ⟨t, by simpa using hu⟩
  | cons d u =>
      right
      rw [List.cons_append, List.cons_append] at hu
      injection hu with h1 h2
      exact ⟨u, t, h2⟩

theorem pre_append_cases : ∀ (a b q : Str), q <+: a ++ b →
    q <+: a ∨ (a <+: q ∧ List.drop a.length q <+: b) := by
  intro a
  induction a with
  | nil =>
      intro b q h
      right
      exact ⟨⟨q, rfl⟩, by simpa using h⟩
  | cons x a ih =>
      intro b q h
      cases q with
      | nil => exact Or.inl ⟨x :: a, rfl⟩
      | cons y q =>
          obtain ⟨t, ht⟩ := h
          rw [List.cons_append, List.cons_append] at ht
          injection ht with h1 h2
          subst h1
          rcases ih b q ⟨t, h2⟩ with hq | ⟨ha, hd⟩
          · left
            obtain ⟨t2, ht2⟩ := hq
            exact ⟨t2, by rw [List.cons_append, ht2]⟩
          · refine Or.inr ⟨?_, ?_⟩
            · obtain ⟨t2, ht2⟩ := ha
              exact ⟨t2, by rw [List.cons_append, ht2]⟩
            · simpa using hd

theorem mid_append_cases : ∀ (a b p : Str), p <:+: a ++ b →
    p <:+: a ∨ p <:+: b ∨
      ∃ k, 0 < k ∧ k < p.length ∧ List.take k p <:+ a ∧ List.drop k p <+: b := by
  intro a
  induction a with
  | nil =>
      intro b p h
      exact Or.inr (Or.inl (by simpa using h))
  | cons x a ih =>
      intro b p h
      rw [List.cons_append] at h
      rcases mid_cons_cases h with hpre | hmid
      · have hpre2 : p <+: (x :: a) ++ b := by simpa using hpre
        rcases pre_append_cases (x :: a) b p hpre2 with hp | ⟨hap, hd⟩
        · exact Or.inl (pre_mid hp)
        · by_cases hlen : p.length ≤ (x :: a).length
          · have heq : x :: a = p :=
              hap.eq_of_length (Nat.le_antisymm hap.length_le hlen)
            exact Or.inl (heq ▸ List.infix_refl p)
          · have htake : List.take (x :: a).length p = x :: a :=
              (List.prefix_iff_eq_take.mp hap).symm
            refine Or.inr (Or.inr ⟨(x :: a).length, by simp, by omega, ?_, hd⟩)
            rw [htake]
      · rcases ih b p hmid with h1 | h2 | ⟨k, hk0, hkl, htk, hdk⟩
        · exact Or.inl (mid_cons x h1)
        · exact Or.inr (Or.inl h2)
        · refine Or.inr (Or.inr ⟨k, hk0, hkl, ?_, hdk⟩)
          obtain ⟨t, ht⟩ := htk
          exact ⟨x :: t, by rw [List.cons_append, ht]⟩

/-!
## Lemmas about the reference scanner
-/

theorem scan_mem (n : Nat) : ∀ s i : Str, i ∈ scanAux n s →
    i ≠ [] ∧ ¬ kiboSeg <+: i := by
  induction n with
  | zero => intro s i h; simp [scanAux] at h
  | succ n ih =>
      intro s i h
      cases s with
      | nil => simp [scanAux] at h
      | cons c cs =>
          simp only [scanAux] at h
          by_cases h1 : uiRoot <+: (c :: cs)
          · rw [if_pos h1] at h
            by_cases h2 : kiboSeg <+: afterOf (c :: cs)
            · rw [if_pos h2] at h
              exact ih cs i h
            · rw [if_neg h2] at h
              by_cases h3 : identOf (c :: cs) = []
              · rw [if_pos h3] at h
                exact ih cs i h
              · rw [if_neg h3] at h
                rcases List.mem_cons.mp h with rfl | hmem
                · exact ⟨h3, fun hk => h2 (List.IsPrefix.trans hk (tw_pre _ _))⟩
                · exact ih _ i hmem
          · rw [if_neg h1] at h
            exact ih cs i h

theorem dedup_sub : ∀ (l seen : List Str) (x : Str), x ∈ dedupFirst seen l → x ∈ l := by
  intro l
  induction l with
  | nil => intro seen x h; simp [dedupFirst] at h
  | cons y ys ih =>
      intro seen x h
      simp only [dedupFirst] at h
      by_cases hy : y ∈ seen
      · rw [if_pos hy] at h
        exact List.mem_cons_of_mem _ (ih _ _ h)
      · rw [if_neg hy] at h
        rcases List.mem_cons.mp h with rfl | hm
        · exact List.mem_cons_self _ _
        · exact List.mem_cons_of_mem _ (ih _ _ hm)

theorem dedup_avoid : ∀ (l seen : List Str) (x : Str), x ∈ dedupFirst seen l → x ∉ seen := by
  intro l
  induction l with
  | nil => intro seen x h; simp [dedupFirst] at h
  | cons y ys ih =>
      intro seen x h
      simp only [dedupFirst] at h
      by_cases hy : y ∈ seen
      · rw [if_pos hy] at h
        exact ih _ _ h
      · rw [if_neg hy] at h
        rcases List.mem_cons.mp h with rfl | hm
        · exact hy
        · intro hx
          exact ih _ _ hm (List.mem_cons_of_mem _ hx)

theorem dedup_nodup : ∀ (l seen : List Str), (dedupFirst seen l).Nodup := by
  intro l
  induction l with
  | nil => intro seen; simp [dedupFirst]
  | cons y ys ih =>
      intro seen
      simp only [dedupFirst]
      by_cases hy : y ∈ seen
      · rw [if_pos hy]
        exact ih _
      · rw [if_neg hy]
        refine List.nodup_cons.mpr ⟨?_, ih _⟩
        intro hmem
        exact dedup_avoid _ _ _ hmem (List.mem_cons_self _ _)

theorem scan_empty (n : Nat) : ∀ s : Str, ¬ uiRoot <:+: s → scanAux n s = [] := by
  induction n with
  | zero => intro s _; rfl
  | succ n ih =>
      intro s h
      cases s with
      | nil => rfl
      | cons c cs =>
          have h1 : ¬ uiRoot <+: (c :: cs) := fun hp => h (pre_mid hp)
          simp only [scanAux]
          rw [if_neg h1]
          exact ih cs (fun hm => h (mid_cons c hm))

/-!
## Claim C9 — reference-scanner exclusions
-/

/-- Claim C9 counterexample: the scanner has no notion of the
currently-resolving component and performs no self-exclusion.  Scanning
`button`'s own content, which references `button`, returns `button`
(the claim requires it to be excluded). -/
theorem c9_counterexample : buttonId ∈ scanComponents selfContent := by decide

/-- Claim C9 (amended): the scanner returns distinct identifiers
(no duplicates), each returned identifier is nonempty and does not fall under
the reserved, already-rewritten `kibo-ui/` sub-segment, and a text with no
occurrence of the internal import prefix yields the empty set (never an
error).  No self-exclusion is performed.  On the example text the scanner
finds exactly `button` and `icon`, skipping the `kibo-ui/` reference. -/
theorem c9_scanner_exclusions :
    (∀ s : Str, (scanComponents s).Nodup) ∧
    (∀ s i : Str, i ∈ scanComponents s → i ≠ [] ∧ ¬ kiboSeg <+: i) ∧
    (∀ s : Str, ¬ uiRoot <:+: s → scanComponents s = []) ∧
    scanComponents scanExample = [buttonId, iconId] := by
  refine ⟨fun s => dedup_nodup _ _, ?_, ?_, by decide⟩
  · intro s i h
    exact scan_mem _ _ _ (dedup_sub _ _ _ h)
  · intro s h
    rw [show scanComponents s = dedupFirst [] (scanAux s.length s) from rfl,
      scan_empty _ _ h]
    rfl

/-- Witness for C9 at concrete inputs. -/
theorem c9_scanner_exclusions_witness :
    (buttonId ≠ [] ∧ ¬ kiboSeg <+: buttonId) ∧
    scanComponents "no references here".data = [] :=
  ⟨c9_scanner_exclusions.2.1 scanExample buttonId (by decide),
   c9_scanner_exclusions.2.2.1 _ (by decide)⟩

/-!
## Lemmas about the resolver
-/

theorem resolveComps_cons_none {sh : ShadcnStore} {rcall : Str → Option PState}
    {c : Str} (cs : List Str) (st : PState) (h : sh c = none) :
    resolveComps sh rcall (c :: cs) st = resolveComps sh rcall cs st := by
  simp only [resolveComps, h]

theorem resolveComps_rec_none {sh : ShadcnStore} {rcall : Str → Option PState}
    {c : Str} {mod : ShadcnMod} (cs : List Str) (st : PState)
    (h1 : sh c = some mod) (h2 : rcall (mod.files.headD []) = none) :
    resolveComps sh rcall (c :: cs) st = none := by
  simp only [resolveComps, h1, h2]

/-- On the cyclic store, the resolver returns `none` (out of fuel) for every
fuel budget, from either cycle member's content: the modelled recursion never
completes. -/
theorem cyc_resolves_none : ∀ n : Nat,
    parseShadcnComponents cycStore n contentRefB2 = none ∧
    parseShadcnComponents cycStore n contentRefA = none := by
  intro n
  induction n with
  | zero => exact ⟨rfl, rfl⟩
  | succ n ih =>
      constructor
      · have hu : parseShadcnComponents cycStore (n + 1) contentRefB2 =
            resolveComps cycStore (parseShadcnComponents cycStore n)
              (scanComponents (parseContent contentRefB2)) ⟨[], [], []⟩ := rfl
        rw [hu, show scanComponents (parseContent contentRefB2) = [bId] from by decide]
        exact resolveComps_rec_none _ _
          (show cycStore bId = some ⟨bId, none, none, [contentRefA]⟩ from by decide) ih.2
      · have hu : parseShadcnComponents cycStore (n + 1) contentRefA =
            resolveComps cycStore (parseShadcnComponents cycStore n)
              (scanComponents (parseContent contentRefA)) ⟨[], [], []⟩ := rfl
        rw [hu, show scanComponents (parseContent contentRefA) = [aId] from by decide]
        exact resolveComps_rec_none _ _
          (show cycStore aId = some ⟨aId, none, none, [contentRefB2]⟩ from by decide) ih.1

/-!
## Claim C2 — cycle termination
-/

/-- Claim C2 (code bug): on the cyclic reference graph `a ↔ b` the resolution
call does *not* terminate: there is no visited set, the recursion re-expands
previously seen identifiers, and for every fuel budget the modelled call is
still unfinished (`none`).  The claim's promised terminating behaviour is
refuted for every budget `n`. -/
theorem c2_cycle_divergence :
    ∀ n : Nat, parseShadcnComponents cycStore n contentRefB2 = none :=
  fun n => (cyc_resolves_none n).1

/-!
## Claim C3 — at-most-once fetch
-/

/-- Claim C3 (code bug): resolving from `a`'s content (which references `b`
twice, while `b` references `a`), the import trace within a fuel budget of 3
already fetches `b` twice and re-fetches `a` once — the claim requires `b`
to be fetched exactly once and `a` never to be re-fetched. -/
theorem c3_refetch_divergence :
    (fetchTrace cycStore 3 contentRefB2).count bId = 2 ∧
    (fetchTrace cycStore 3 contentRefB2).count aId = 1 := by
  exact ⟨by decide, by decide⟩

/-!
## Claim C1 — transitive resolution
-/

/-- Claim C1 (code bug): with entry code referencing `button`, whose record
references `icon` (which references nothing), the terminating, non-throwing
`Preview` run stores the entry file and `button`'s canonical file, but *no*
file for `icon`: the recursive call that resolved `icon` wrote into fresh
local maps that were discarded (source lines 84-88), so only depth-one files
appear, refuting the claim. -/
theorem c1_transitive_loss :
    fileAt (preview st1 pub1 5 demoId entryCode none) appPath = some (some entryCode) ∧
    fileAt (preview st1 pub1 5 demoId entryCode none) (uiPath buttonId) =
      some (some (parseContent buttonContent)) ∧
    fileAt (preview st1 pub1 5 demoId entryCode none) (uiPath iconId) = some none := by
  exact ⟨by decide, by decide, by decide⟩

/-!
## Claim C4 — fetch failure is never fatal
-/

/-- Claim C4 counterexample: a failed fetch of an identifier listed in the
record's explicit `registryDependencies` is *not* caught (source lines
128-147 have no `try`/`catch`), so the `Preview` call throws instead of
returning a file set. -/
theorem c4_counterexample : threw (preview st1 pub2 5 demoId [] none) = true := by decide

/-- Claim C4 (amended): fetch failures of identifiers discovered by
*scanning* are soft — processing a component list is identical to processing
only its fetchable members (the failed ones contribute zero files and zero
dependency entries and do not disturb siblings) — and a concrete run whose
entry references the nonexistent `zz` next to `button` still returns a file
set with `button`'s file, no `zz` file, and only baseline dependencies.
A failed fetch of an explicit `registryDependencies` entry, however,
propagates as a thrown error. -/
theorem c4_soft_fetch_failures :
    (∀ (sh : ShadcnStore) (rcall : Str → Option PState) (comps : List Str) (st : PState),
        resolveComps sh rcall comps st =
          resolveComps sh rcall (comps.filter (fun c => (sh c).isSome)) st) ∧
    fileAt (preview st1 pub1 5 demoId codeZZ none) (uiPath buttonId) =
      some (some (parseContent buttonContent)) ∧
    fileAt (preview st1 pub1 5 demoId codeZZ none) (uiPath zzId) = some none ∧
    (vfsOf (preview st1 pub1 5 demoId codeZZ none)).map VirtualFileSet.dependencies =
      some (finalRuntimeDeps []) := by
  refine ⟨?_, by decide, by decide, by decide⟩
  intro sh rcall comps
  induction comps with
  | nil => intro st; rfl
  | cons c cs ih =>
      intro st
      cases hc : sh c with
      | none =>
          rw [resolveComps_cons_none _ _ hc]
          rw [show (c :: cs).filter (fun c => (sh c).isSome) =
              cs.filter (fun c => (sh c).isSome) from by simp [List.filter, hc]]
          exact ih st
      | some mod =>
          rw [show (c :: cs).filter (fun c => (sh c).isSome) =
              c :: cs.filter (fun c => (sh c).isSome) from by simp [List.filter, hc]]
          simp only [resolveComps, hc]
          cases hr : rcall (mod.files.headD []) with
          | none => simp only [hr]
          | some p =>
              simp only [hr]
              exact ih _

/-!
## Lemmas about `parseContent`, and idempotence (Claim C8)

The shape of the argument: the replacement `canonPre` can never recreate an
occurrence of `regPat` (no nonempty suffix of `canonPre` begins `regPat`,
`regPat` does not occur inside `canonPre`, and no proper nonempty `regPat`
front-piece survives as a `canonPre` suffix), so the output of `parseContent`
contains no occurrence of `regPat`; and `parseContent` is the identity on
texts without occurrences.
-/

theorem regPat_len : regPat.length = 23 := rfl

theorem pcAux_nil (n : Nat) : pcAux n [] = [] := by
  cases n with
  | zero => rfl
  | succ n => rfl

theorem pre_nil_elim {l : Str} (h : l <+: []) : l = [] := by
  obtain ⟨t, ht⟩ := h
  exact (List.append_eq_nil.mp ht).1

theorem drop_nonempty (k : Nat) (hk : k < 23) : List.drop k regPat ≠ [] := by
  intro h0
  have hlen : (List.drop k regPat).length = 0 := by rw [h0]; rfl
  rw [List.length_drop, regPat_len] at hlen
  omega

theorem pcAux_irrel : ∀ n m : Nat, ∀ s : Str, s.length ≤ n → s.length ≤ m →
    pcAux n s = pcAux m s := by
  intro n
  induction n with
  | zero =>
      intro m s hn _
      have hnil : s = [] := List.length_eq_zero.mp (Nat.le_zero.mp hn)
      subst hnil
      rw [pcAux_nil, pcAux_nil]
  | succ n ih =>
      intro m s hn hm
      cases s with
      | nil => rw [pcAux_nil, pcAux_nil]
      | cons c cs =>
          cases m with
          | zero => simp at hm
          | succ m2 =>
              simp only [List.length_cons] at hn hm
              simp only [pcAux]
              by_cases h : regPat <+: (c :: cs)
              · rw [if_pos h, if_pos h]
                have hd1 : (List.drop regPat.length (c :: cs)).length ≤ n := by
                  simp only [List.length_drop, List.length_cons, regPat_len]
                  omega
                have hd2 : (List.drop regPat.length (c :: cs)).length ≤ m2 := by
                  simp only [List.length_drop, List.length_cons, regPat_len]
                  omega
                rw [ih _ _ hd1 hd2]
              · rw [if_neg h, if_neg h]
                rw [ih m2 cs (by omega) (by omega)]

theorem pc_pos {s : Str} (h : regPat <+: s) :
    parseContent s = canonPre ++ parseContent (List.drop regPat.length s) := by
  cases s with
  | nil =>
      have : regPat = [] := pre_nil_elim h
      exact absurd this (by decide)
  | cons c cs =>
      show pcAux (c :: cs).length (c :: cs) = _
      simp only [List.length_cons, pcAux]
      rw [if_pos h]
      congr 1
      apply pcAux_irrel
      · simp only [List.length_drop, List.length_cons, regPat_len]
        omega
      · exact Nat.le_refl _

theorem pc_neg {c : Char} {cs : Str} (h : ¬ regPat <+: (c :: cs)) :
    parseContent (c :: cs) = c :: parseContent cs := by
  show pcAux (c :: cs).length (c :: cs) = _
  simp only [List.length_cons, pcAux]
  rw [if_neg h]
  rfl

theorem no_drop_pre_canon : ∀ k, k < 23 → ¬ (List.drop k regPat <+: canonPre) := by decide

theorem no_canon_pre_drop : ∀ k, k < 23 → ¬ (canonPre <+: List.drop k regPat) := by decide

theorem no_regPat_mid_canon : ¬ regPat <:+: canonPre := by decide

theorem no_take_sfx_canon : ∀ k, k < 23 → 0 < k → ¬ (List.take k regPat <:+ canonPre) := by
  decide

/-- Front pieces of `regPat` found at the front of a `parseContent` output
were already at the front of the input. -/
theorem drop_pre_sound : ∀ n : Nat, ∀ s : Str, s.length ≤ n → ∀ k : Nat, k < 23 →
    List.drop k regPat <+: parseContent s → List.drop k regPat <+: s := by
  intro n
  induction n with
  | zero =>
      intro s hs k hk h
      have hnil : s = [] := List.length_eq_zero.mp (Nat.le_zero.mp hs)
      subst hnil
      exact absurd (pre_nil_elim h) (drop_nonempty k hk)
  | succ n ih =>
      intro s hs k hk h
      by_cases hp : regPat <+: s
      · rw [pc_pos hp] at h
        rcases pre_append_cases canonPre _ _ h with h1 | ⟨h2, _⟩
        · exact absurd h1 (no_drop_pre_canon k hk)
        · exact absurd h2 (no_canon_pre_drop k hk)
      · cases s with
        | nil =>
            have hpc : parseContent ([] : Str) = [] := rfl
            rw [hpc] at h
            exact absurd (pre_nil_elim h) (drop_nonempty k hk)
        | cons c cs =>
            rw [pc_neg hp] at h
            obtain ⟨d, q, hdq⟩ : ∃ d q, List.drop k regPat = d :: q := by
              cases hql : List.drop k regPat with
              | nil => exact absurd hql (drop_nonempty k hk)
              | cons d q => exact ⟨d, q, rfl⟩
            have hq : q = List.drop (k + 1) regPat := by
              have ht := List.tail_drop regPat k
              rw [hdq] at ht
              simpa using ht
            rw [hdq] at h
            obtain ⟨t, ht⟩ := h
            rw [List.cons_append] at ht
            injection ht with hd htail
            have hq2 : List.drop (k + 1) regPat <+: cs := by
              by_cases hk1 : k + 1 < 23
              · refine ih cs ?_ (k + 1) hk1 ?_
                · simp only [List.length_cons] at hs; omega
                · rw [← hq]; exact ⟨t, htail⟩
              · have hnil : List.drop (k + 1) regPat = [] := by
                  apply List.drop_eq_nil_of_le
                  rw [regPat_len]; omega
                rw [hnil]
                exact ⟨cs, rfl⟩
            obtain ⟨t2, ht2⟩ := hq2
            rw [hdq, ← hd, hq]
            exact ⟨t2, by rw [List.cons_append, ht2]⟩

/-- The output of `parseContent` contains no occurrence of the raw registry
pattern. -/
theorem pc_no_occurrence : ∀ n : Nat, ∀ s : Str, s.length ≤ n →
    ¬ regPat <:+: parseContent s := by
  intro n
  induction n with
  | zero =>
      intro s hs h
      have hnil : s = [] := List.length_eq_zero.mp (Nat.le_zero.mp hs)
      subst hnil
      obtain ⟨u, t, hut⟩ := h
      have h1 := List.append_eq_nil.mp hut
      have h2 := List.append_eq_nil.mp h1.1
      exact absurd h2.2 (by decide)
  | succ n ih =>
      intro s hs h
      by_cases hp : regPat <+: s
      · rw [pc_pos hp] at h
        rcases mid_append_cases canonPre _ _ h with h1 | h2 | ⟨k, hk0, hkl, htk, _⟩
        · exact no_regPat_mid_canon h1
        · refine ih _ ?_ h2
          simp only [List.length_drop, regPat_len]
          omega
        · rw [regPat_len] at hkl
          exact no_take_sfx_canon k hkl hk0 htk
      · cases s with
        | nil =>
            obtain ⟨u, t, hut⟩ := h
            have h1 := List.append_eq_nil.mp hut
            have h2 := List.append_eq_nil.mp h1.1
            exact absurd h2.2 (by decide)
        | cons c cs =>
            rw [pc_neg hp] at h
            rcases mid_cons_cases h with h1 | h2
            · have h3 : List.drop 0 regPat <+: parseContent (c :: cs) := by
                rw [pc_neg hp]
                simpa using h1
              have h4 := drop_pre_sound (n + 1) (c :: cs) hs 0 (by omega) h3
              simp only [List.drop_zero] at h4
              exact hp h4
            · refine ih cs ?_ h2
              simp only [List.length_cons] at hs
              omega

/-- `parseContent` is the identity on texts without occurrences of the raw
registry pattern. -/
theorem pc_fixed : ∀ n : Nat, ∀ s : Str, s.length ≤ n →
    ¬ regPat <:+: s → parseContent s = s := by
  intro n
  induction n with
  | zero =>
      intro s hs _
      have hnil : s = [] := List.length_eq_zero.mp (Nat.le_zero.mp hs)
      subst hnil
      rfl
  | succ n ih =>
      intro s hs h
      cases s with
      | nil => rfl
      | cons c cs =>
          have hp : ¬ regPat <+: (c :: cs) := fun hx => h (pre_mid hx)
          rw [pc_neg hp, ih cs (by simp only [List.length_cons] at hs; omega)
            (fun hx => h (mid_cons c hx))]

/-!
## Claim C8 — path-rewrite idempotence
-/

/-- Claim C8: the content rewrite is idempotent — for every source text `x`,
`parseContent (parseContent x) = parseContent x`. -/
theorem c8_rewrite_idempotent :
    ∀ s : Str, parseContent (parseContent s) = parseContent s :=
  fun s => pc_fixed (parseContent s).length _ (Nat.le_refl _)
    (pc_no_occurrence s.length s (Nat.le_refl _))
